import Mathlib

/-!
Verification development for the decoding engine, mask construction and
checkpoint lifecycle of src/src/run.py (a transformer translation tool).

The embedding is parametrised by the configuration constants of constants.py
(not part of the sources here): maximum sequence length, pad / start / end
token ids and the beam size.  Token ids are naturals; the model scores
(log-probabilities after the final log-softmax) are rationals, standing for
the real-valued tensors of the source.  The transformer forward pass is an
opaque collaborator: a decoding stub maps the padded target buffer and a
position to the vocabulary distribution at that position (the encoder output
and encoder mask are fixed throughout one decode call and are folded into the
stub; the decoder mask is itself a function of the buffer, so the stub
subsumes it).
-/

set_option maxRecDepth 4000

/-- Configuration constants consumed by the core (constants.py is not among
the sources; the spec lists them: max sequence length L, pad/start/end token
ids, beam size). -/
structure Cfg where
  seq_len : Nat
  pad_id : Nat
  sos_id : Nat
  eos_id : Nat
  beam_size : Nat
deriving DecidableEq

/-- A model stub: padded target buffer and position to the per-vocabulary
log-probability distribution at that position, i.e. the row output[0][pos] of
softmax(output_linear(decoder(...))) in run.py. -/
abbrev Stub := List Nat → Nat → List ℚ

/-- Right-pad a token sequence with the pad id up to the configured length;
this is the expression node.decoded + [pad_id] * (seq_len - len(node.decoded))
of run.py line 286, and also describes the greedy working buffer. -/
def padTo (cfg : Cfg) (d : List Nat) : List Nat :=
  d ++ List.replicate (cfg.seq_len - d.length) cfg.pad_id

/-- Pair every entry of a distribution with its index (token id). -/
def idxPairs (xs : List ℚ) : List (Nat × ℚ) :=
  (List.range xs.length).map (fun i => (i, xs.getD i 0))

/-- Extract the first pair of maximal value from a list of (index, value)
pairs, returning it together with the remaining pairs.  This models the
selection order of torch.argmax / torch.topk: the maximal value wins, and
among equal values the smaller index is taken first (torch.argmax returns the
first maximal index; the order torch.topk gives equal values is not
documented, modelled here as index-ascending). -/
def selectMax : List (Nat × ℚ) → Option ((Nat × ℚ) × List (Nat × ℚ))
  | [] => none
  | p :: rest =>
    match selectMax rest with
    | none => some (p, [])
    | some (q, rem) => if q.2 > p.2 then some (q, p :: rem) else some (p, rest)

/-- Top-k extraction from (index, value) pairs, by repeatedly removing the
maximum; the result is value-descending, as torch.topk returns it. -/
def topkPairs : Nat → List (Nat × ℚ) → List (Nat × ℚ)
  | 0, _ => []
  | k + 1, l =>
    match selectMax l with
    | none => []
    | some (q, rem) => q :: topkPairs k rem

/-- torch.topk(xs, k): top-k (token id, log-probability) pairs of a
distribution. -/
def topkList (k : Nat) (xs : List ℚ) : List (Nat × ℚ) :=
  topkPairs k (idxPairs xs)

/-- torch.argmax: index of the first maximal entry of a distribution. -/
def argmaxIdx (xs : List ℚ) : Nat :=
  match selectMax (idxPairs xs) with
  | some (q, _) => q.1
  | none => 0

/-! ## MaskBuilder (Manager.make_mask, run.py lines 332-340) -/

/-- e_mask = (src_input != pad_id): one boolean per source position. -/
def e_mask_of (cfg : Cfg) (src : List Nat) : List Bool :=
  src.map (fun t => t != cfg.pad_id)

/-- nopeak_mask = torch.tril(torch.ones(L, L)): the lower-triangular
(inclusive) causal mask. -/
def trilMask (L : Nat) : List (List Bool) :=
  (List.range L).map (fun i => (List.range L).map (fun j => decide (j ≤ i)))

/-- d_mask = (trg_input != pad_id) & nopeak_mask: the padding row broadcast
over the rows of the causal mask and combined pointwise. -/
def d_mask_of (cfg : Cfg) (trg : List Nat) : List (List Bool) :=
  (trilMask cfg.seq_len).map
    (fun row => List.zipWith (fun a b => a && b) (trg.map (fun t => t != cfg.pad_id)) row)

/-- Manager.make_mask: encoder padding mask and decoder (padding AND causal)
mask. -/
def make_mask (cfg : Cfg) (src trg : List Nat) : List Bool × List (List Bool) :=
  (e_mask_of cfg src, d_mask_of cfg trg)

/-! ## GreedyDecoder (Manager.greedy_search, run.py lines 230-270) -/

/-- One iteration of the greedy loop body at step i: take the argmax token at
position i, write it into buffer slot i+1 and bump cur_len when i < L-1.
Returns (buffer, cur_len, emitted token). -/
def greedyStep (cfg : Cfg) (M : Stub) (i : Nat) (buf : List Nat) (cl : Nat) :
    List Nat × Nat × Nat :=
  if i < cfg.seq_len - 1
  then (buf.set (i + 1) (argmaxIdx (M buf i)), cl + 1, argmaxIdx (M buf i))
  else (buf, cl, argmaxIdx (M buf i))

/-- The greedy loop (for i in range(seq_len) with a break on eos), with the
remaining iteration count as fuel; returns the final buffer and cur_len. -/
def greedyLoop (cfg : Cfg) (M : Stub) : Nat → Nat → List Nat → Nat → List Nat × Nat
  | 0, _i, buf, cl => (buf, cl)
  | fuel + 1, i, buf, cl =>
    match greedyStep cfg M i buf cl with
    | (buf1, cl1, w) =>
      if w = cfg.eos_id then (buf1, cl1) else greedyLoop cfg M fuel (i + 1) buf1 cl1

/-- last_words = LongTensor([pad_id] * seq_len); last_words[0] = sos_id. -/
def greedyInitBuf (cfg : Cfg) : List Nat :=
  (List.replicate cfg.seq_len cfg.pad_id).set 0 cfg.sos_id

/-- Buffer and cur_len when the greedy loop ends. -/
def greedyState (cfg : Cfg) (M : Stub) : List Nat × Nat :=
  greedyLoop cfg M cfg.seq_len 0 (greedyInitBuf cfg) 1

/-- Greedy output extraction (run.py lines 264-267): if the final buffer slot
is pad, take last_words[1:cur_len], else last_words[1:].  The result is the
id sequence handed to the external tokenizer. -/
def greedyIds (cfg : Cfg) (M : Stub) : List Nat :=
  if (greedyState cfg M).1.getD (cfg.seq_len - 1) cfg.pad_id = cfg.pad_id
  then (((greedyState cfg M).1.take (greedyState cfg M).2).drop 1)
  else ((greedyState cfg M).1.drop 1)

/-! ## BeamDecoder (Manager.beam_search, run.py lines 272-329)

BeamNode and PriorityQueue come from data_structure.py, which is not among
the sources.  Modelled from the spec: a BeamNode owns the last emitted token
id, the cumulative score (negated log-probability, so that the minimum key is
the most probable hypothesis), the decoded id sequence and a finished flag,
initially false; the priority structure pops the hypothesis of minimal stored
score.  The order among equal scores is left open by the spec and is modelled
as first-inserted-first. -/

/-- Modelled from the spec: BeamNode of data_structure.py (not among the
sources): last emitted token id, stored score, decoded sequence, finished
flag (false at creation). -/
structure BeamNode where
  word_id : Nat
  prob : ℚ
  decoded : List Nat
  is_finished : Bool := false
deriving DecidableEq

/-- Modelled from the spec: PriorityQueue.put, insertion into the priority
structure (modelled as appending; the pop side realises the priority). -/
def pqPut (q : List BeamNode) (n : BeamNode) : List BeamNode :=
  q ++ [n]

/-- Modelled from the spec: PriorityQueue.get pops a hypothesis of minimal
stored score; among equal scores the earliest-inserted is taken (the spec
fixes only minimal-key popping).  None on an empty queue (where the source
queue.get() would block; this state is unreachable in runs where the
vocabulary has at least beam_size entries). -/
def pqGet? : List BeamNode → Option (BeamNode × List BeamNode)
  | [] => none
  | n :: rest =>
    match pqGet? rest with
    | none => some (n, [])
    | some (m, rem) => if m.prob < n.prob then some (m, n :: rem) else some (n, rest)

/-- BeamNode(sos_id, -0.0, [sos_id]) of run.py line 275. -/
def startNode (cfg : Cfg) : BeamNode :=
  { word_id := cfg.sos_id, prob := -(0 : ℚ), decoded := [cfg.sos_id], is_finished := false }

/-- The initial beam: beam_size puts of the start hypothesis (run.py lines
273-275). -/
def initQueue (cfg : Cfg) : List BeamNode :=
  (List.range cfg.beam_size).foldl (fun q _ => pqPut q (startNode cfg)) []

/-- Child hypothesis construction (run.py lines 309-314):
new_node = BeamNode(idx, -(-node.prob + logp), node.decoded + [idx]); when
idx is the end token its score is divided by the new sequence length and it
is marked finished. -/
def mkChild (cfg : Cfg) (node : BeamNode) (p : Nat × ℚ) : BeamNode :=
  if p.1 = cfg.eos_id
  then { word_id := p.1, prob := (-(-node.prob + p.2)) / ((node.decoded.length + 1 : Nat) : ℚ),
         decoded := node.decoded ++ [p.1], is_finished := true }
  else { word_id := p.1, prob := -(-node.prob + p.2),
         decoded := node.decoded ++ [p.1], is_finished := false }

/-- The top-beam_size (token, log-probability) extensions of an unfinished
hypothesis at a decode position: pad the decoded sequence to length L, run
the decode pass (the stub) and take torch.topk at that position (run.py lines
286-307). -/
def expandNode (cfg : Cfg) (M : Stub) (pos : Nat) (node : BeamNode) : List (Nat × ℚ) :=
  topkList cfg.beam_size (M (padTo cfg node.decoded) pos)

/-- The inner loop over the beam_size popped hypotheses at one position
(run.py lines 281-315): a finished pop is carried unchanged; an unfinished
pop contributes beam_size children, each end-token child bumping the finished
tally. -/
def beamInner (cfg : Cfg) (M : Stub) (pos : Nat) :
    Nat → List BeamNode → List BeamNode → Nat → List BeamNode × Nat
  | 0, _cur, acc, fc => (acc, fc)
  | k + 1, cur, acc, fc =>
    match pqGet? cur with
    | none => (acc, fc)
    | some (node, rest) =>
      if node.is_finished then beamInner cfg M pos k rest (pqPut acc node) fc
      else
        match expandNode cfg M pos node with
        | tk =>
          beamInner cfg M pos k rest (acc ++ tk.map (mkChild cfg node))
            (fc + (tk.filter (fun p => p.1 = cfg.eos_id)).length)

/-- One decode position of beam search: new queue and finished count. -/
def beamPosStep (cfg : Cfg) (M : Stub) (pos : Nat) (q : List BeamNode) (fc : Nat) :
    List BeamNode × Nat :=
  beamInner cfg M pos cfg.beam_size q [] fc

/-- The outer positions loop (for pos in range(seq_len)), breaking when the
finished count equals beam_size (run.py lines 319-320).  Returns the final
queue, the final finished count, and how many positions were processed. -/
def beamLoop (cfg : Cfg) (M : Stub) : Nat → Nat → List BeamNode → Nat → List BeamNode × Nat × Nat
  | 0, _pos, q, fc => (q, fc, 0)
  | fuel + 1, pos, q, fc =>
    match beamPosStep cfg M pos q fc with
    | (q1, fc1) =>
      if fc1 = cfg.beam_size then (q1, fc1, 1)
      else
        match beamLoop cfg M fuel (pos + 1) q1 fc1 with
        | (q2, fc2, n) => (q2, fc2, n + 1)

/-- The full beam search loop from the initial beam. -/
def beamFinal (cfg : Cfg) (M : Stub) : List BeamNode × Nat × Nat :=
  beamLoop cfg M cfg.seq_len 0 (initQueue cfg) 0

/-- Number of decode positions the beam search loop processed. -/
def beamPositionsProcessed (cfg : Cfg) (M : Stub) : Nat :=
  (beamFinal cfg M).2.2

/-- Beam result extraction (run.py lines 322-327): pop the best hypothesis of
the final queue; strip the leading start token, and the trailing token too
when it is the end token. -/
def beamIds (cfg : Cfg) (M : Stub) : List Nat :=
  match pqGet? (beamFinal cfg M).1 with
  | none => []
  | some (n, _) =>
    if n.decoded.getLast? = some cfg.eos_id
    then (n.decoded.drop 1).dropLast
    else n.decoded.drop 1

/-- One position of beam search as a step on (position, queue, finished
count), for stating trajectory properties. -/
def stepState (cfg : Cfg) (M : Stub) (s : Nat × List BeamNode × Nat) :
    Nat × List BeamNode × Nat :=
  (s.1 + 1, beamPosStep cfg M s.1 s.2.1 s.2.2)

/-- The beam search state after k positions, ignoring the early-exit check
(the loop's own states coincide with these up to the position where it
stops). -/
def beamStateFull (cfg : Cfg) (M : Stub) (k : Nat) : Nat × List BeamNode × Nat :=
  (stepState cfg M)^[k] (0, initQueue cfg, 0)

/-! ## The greedy token trace

Both decoders query the same decode pass on the same padded buffer, so the
sequence of argmax tokens is a function of the stub alone; it characterises
the greedy run and the beam_size = 1 beam run. -/

/-- Tokens the greedy argmax emits at steps 0..j-1 (position 0 of the buffer
holds the start id). -/
def trace (cfg : Cfg) (M : Stub) : Nat → List Nat
  | 0 => []
  | j + 1 =>
    trace cfg M j ++ [argmaxIdx (M (padTo cfg (cfg.sos_id :: trace cfg M j)) j)]

/-- The argmax token at step j of the greedy trace. -/
def tokAt (cfg : Cfg) (M : Stub) (j : Nat) : Nat :=
  argmaxIdx (M (padTo cfg (cfg.sos_id :: trace cfg M j)) j)

/-- First step in [i, i+fuel) whose trace token is the end id. -/
def findEosFrom (cfg : Cfg) (M : Stub) : Nat → Nat → Option Nat
  | 0, _ => none
  | fuel + 1, i => if tokAt cfg M i = cfg.eos_id then some i else findEosFrom cfg M fuel (i + 1)

/-- The raw accumulated (negated) log-probability of a decoded sequence under
a stub: the sum over its extension steps of the negated log-probability the
stub assigned to the appended token.  This is the quantity the beam scores
accumulate before length normalisation. -/
def rawScore (cfg : Cfg) (M : Stub) (d : List Nat) : ℚ :=
  ∑ j ∈ Finset.range (d.length - 1),
    -((M (padTo cfg (d.take (j + 1))) j).getD (d.getD (j + 1) 0) 0)

/-- The score/length/finish bookkeeping invariant of beam search: an
unfinished hypothesis after k positions has k+1 decoded tokens and carries
exactly its raw accumulated negated log-probability; a finished hypothesis
carries that raw score divided (once) by its decoded length. -/
def scoreInv (cfg : Cfg) (M : Stub) (k : Nat) (n : BeamNode) : Prop :=
  (n.is_finished = false → n.decoded.length = k + 1 ∧ n.prob = rawScore cfg M n.decoded) ∧
  (n.is_finished = true → n.prob = rawScore cfg M n.decoded / (n.decoded.length : ℚ))

/-! ## TrainingLoop / CheckpointManager (Manager.train, run.py lines 78-150) -/

/-- Modelled constant: sys.float_info.max, the largest finite double,
(2 - 2^-52) * 2^1023, to which Manager.__init__ line 47 initialises
best_loss. -/
def floatMax : ℚ := 2 ^ 1024 - 2 ^ 971

/-- The per-epoch checkpoint decision of Manager.train lines 134-144, run
over a scripted sequence of validation losses: when the epoch's loss is
strictly below the best seen, the best is replaced and the epoch number is
recorded as a checkpoint write. -/
def trainGo : List ℚ → ℚ → Nat → ℚ × List Nat
  | [], best, _ => (best, [])
  | l :: ls, best, e =>
    if l < best
    then match trainGo ls l (e + 1) with
         | (b, w) => (b, e :: w)
    else trainGo ls best (e + 1)

/-- Epoch numbers (1-based) after which the best checkpoint is written, for a
scripted validation-loss sequence, starting from a freshly constructed
Manager (no checkpoint name, best_loss = sys.float_info.max). -/
def ckptWrites (losses : List ℚ) : List Nat :=
  (trainGo losses floatMax 1).2

/-! ## Inference dispatch (run.py lines 212-217 and 359-366) -/

/-- Python error outcomes of the inference dispatch. -/
inductive PyErr where
  | valueError (msg : String)
  | nameError (msg : String)
deriving DecidableEq

/-- The decode-method dispatch of Manager.inference (run.py lines 212-217,
the method the CLI entry point calls): there is no else branch, so with an
unrecognised method the local result is never assigned and the later
print(f"Result: {result}") raises a NameError; no translation is produced. -/
def managerInferenceDispatch (method : String) (greedyResult beamResult : List Nat) :
    Except PyErr (List Nat) :=
  if method = "greedy" then Except.ok greedyResult
  else if method = "beam" then Except.ok beamResult
  else Except.error (PyErr.nameError "name result is not defined")

/-- The decode-method dispatch of the module-level inference function (run.py
lines 359-366): an unrecognised method raises
ValueError("Invalid decoding method. ..."). -/
def moduleInferenceDispatch (method : String) (greedyResult beamResult : List Nat) :
    Except PyErr (List Nat) :=
  if method = "greedy" then Except.ok greedyResult
  else if method = "beam" then Except.ok beamResult
  else Except.error (PyErr.valueError "Invalid decoding method. Choose greedy or beam.")

/-- Is an outcome an InvalidArgument-style failure? -/
def isInvalidArg : Except PyErr (List Nat) → Bool
  | Except.error (PyErr.valueError _) => true
  | _ => false

/-! ## Concrete configurations and stubs for the scenario claims -/

/-- The spec's end-to-end scenario constants: vocabulary pad=0, sos=1, eos=2,
a=3, b=4; L=5; beam size 1. -/
def cfgB1 : Cfg :=
  { seq_len := 5, pad_id := 0, sos_id := 1, eos_id := 2, beam_size := 1 }

/-- The spec's scenario stub: always predict a (id 3) at step 0, then eos
(id 2); log-probabilities are fixed. -/
def stubAB : Stub := fun _buf pos =>
  if pos = 0 then [-10, -10, -10, -1, -10] else [-10, -10, -1, -10, -10]

/-- A beam_size = 2 configuration over a 6-token vocabulary
(pad=0, sos=1, eos=2, a=3, b=4, c=5) with L = 4. -/
def cfgC1 : Cfg :=
  { seq_len := 4, pad_id := 0, sos_id := 1, eos_id := 2, beam_size := 2 }

/-- A stub under which the finished tally of beam search skips the value
beam_size = 2: position 0 produces two equal-scored distinct hypotheses, of
which exactly one finishes at position 1 (tally 1) and both survivors finish
at position 2 (tally 3), so the equality early-exit check never fires. -/
def stubC1 : Stub := fun buf pos =>
  if pos = 0 then [-10, -10, -10, -1, -1, -10]
  else if pos = 1 then
    (if buf = [1, 3, 0, 0] then [-10, -10, -8, -10, -10, -1]
     else [-10, -10, -10, -1, -5/4, -10])
  else if pos = 2 then
    (if buf = [1, 3, 5, 0] then [-10, -10, -1/2, -1, -10, -10]
     else if buf = [1, 4, 3, 0] then [-10, -10, -1/2, -10, -1, -10]
     else [-10, -10, -10, -1, -10, -10])
  else [-10, -10, -10, -1, -10, -10]

/-! ## Auxiliary lemmas and claim proofs -/

/-! ### Ordering, membership and permutation facts about the top-k selection -/

theorem selectMax_none_iff {l : List (Nat × ℚ)} : selectMax l = none ↔ l = [] := by
  cases l with
  | nil => simp [selectMax]
  | cons p rest =>
    simp only [selectMax]
    cases hr : selectMax rest with
    | none => simp
    | some pr =>
      obtain ⟨m, rem⟩ := pr
      by_cases hc : m.2 > p.2 <;> simp [hc]

theorem selectMax_perm :
    ∀ {l : List (Nat × ℚ)} {q : Nat × ℚ} {rem : List (Nat × ℚ)},
      selectMax l = some (q, rem) → l.Perm (q :: rem) := by
  intro l
  induction l with
  | nil => intro q rem h; simp [selectMax] at h
  | cons p rest ih =>
    intro q rem h
    simp only [selectMax] at h
    cases hr : selectMax rest with
    | none =>
      rw [hr] at h
      rw [selectMax_none_iff.mp hr]
      simp only [Option.some.injEq, Prod.mk.injEq] at h
      rw [h.1, h.2]
    | some pr =>
      obtain ⟨m, rem2⟩ := pr
      rw [hr] at h
      dsimp only at h
      by_cases hc : m.2 > p.2
      · rw [if_pos hc] at h
        simp only [Option.some.injEq, Prod.mk.injEq] at h
        obtain ⟨rfl, rfl⟩ := h
        exact ((ih hr).cons p).trans (List.Perm.swap m p rem2)
      · rw [if_neg hc] at h
        simp only [Option.some.injEq, Prod.mk.injEq] at h
        rw [h.1, h.2]

theorem selectMax_mem {l : List (Nat × ℚ)} {q : Nat × ℚ} {rem : List (Nat × ℚ)}
    (h : selectMax l = some (q, rem)) : q ∈ l ∧ ∀ x ∈ rem, x ∈ l := by
  constructor
  · exact (selectMax_perm h).mem_iff.mpr (List.mem_cons_self q rem)
  · intro x hx
    exact (selectMax_perm h).mem_iff.mpr (List.mem_cons_of_mem q hx)

theorem topkPairs_mem :
    ∀ (k : Nat) {l : List (Nat × ℚ)} {p : Nat × ℚ}, p ∈ topkPairs k l → p ∈ l := by
  intro k
  induction k with
  | zero => intro l p h; simp [topkPairs] at h
  | succ k ih =>
    intro l p h
    simp only [topkPairs] at h
    cases hs : selectMax l with
    | none => rw [hs] at h; simp at h
    | some pr =>
      obtain ⟨q, rem⟩ := pr
      rw [hs] at h
      rcases List.mem_cons.mp h with h1 | h1
      · rw [h1]; exact (selectMax_mem hs).1
      · exact (selectMax_mem hs).2 p (ih h1)

theorem idxPairs_mem {xs : List ℚ} {p : Nat × ℚ} (h : p ∈ idxPairs xs) :
    xs.getD p.1 0 = p.2 := by
  simp only [idxPairs, List.mem_map, List.mem_range] at h
  obtain ⟨i, _, hi⟩ := h
  rw [← hi]

theorem topkList_mem {k : Nat} {xs : List ℚ} {p : Nat × ℚ} (h : p ∈ topkList k xs) :
    xs.getD p.1 0 = p.2 :=
  idxPairs_mem (topkPairs_mem k h)

theorem topkList_one {xs : List ℚ} (h : xs ≠ []) :
    ∃ v, topkList 1 xs = [(argmaxIdx xs, v)] := by
  have hne : idxPairs xs ≠ [] := by
    intro hx
    apply h
    have hlen := congrArg List.length hx
    simp only [idxPairs, List.length_map, List.length_range, List.length_nil] at hlen
    exact List.eq_nil_of_length_eq_zero hlen
  cases hs : selectMax (idxPairs xs) with
  | none => exact absurd (selectMax_none_iff.mp hs) hne
  | some pr =>
    obtain ⟨q, rem⟩ := pr
    refine ⟨q.2, ?_⟩
    simp [topkList, topkPairs, hs, argmaxIdx]

/-! ## Facts about padded buffers -/

theorem replicate_pad_set (p w : Nat) :
    ∀ (d : List Nat) (Lr : Nat), d.length < Lr →
      (d ++ List.replicate (Lr - d.length) p).set d.length w
        = (d ++ [w]) ++ List.replicate (Lr - (d.length + 1)) p := by
  intro d
  induction d with
  | nil =>
    intro Lr hL
    obtain ⟨Lr2, rfl⟩ : ∃ L2, Lr = L2 + 1 := ⟨Lr - 1, by omega⟩
    simp [List.replicate_succ]
  | cons a t ih =>
    intro Lr hL
    obtain ⟨Lr2, rfl⟩ : ∃ L2, Lr = L2 + 1 := ⟨Lr - 1, by omega⟩
    have ht : t.length < Lr2 := by simpa using hL
    simp only [List.cons_append, List.length_cons, List.set_cons_succ,
      Nat.succ_sub_succ]
    rw [ih Lr2 ht]

theorem padTo_set {cfg : Cfg} {d : List Nat} (h : d.length < cfg.seq_len) (w : Nat) :
    (padTo cfg d).set d.length w = padTo cfg (d ++ [w]) := by
  unfold padTo
  rw [replicate_pad_set cfg.pad_id w d cfg.seq_len h]
  simp

theorem padTo_eq_self {cfg : Cfg} {d : List Nat} (h : cfg.seq_len ≤ d.length) :
    padTo cfg d = d := by
  simp [padTo, Nat.sub_eq_zero_of_le h]

theorem padTo_length {cfg : Cfg} {d : List Nat} (h : d.length ≤ cfg.seq_len) :
    (padTo cfg d).length = cfg.seq_len := by
  simp only [padTo, List.length_append, List.length_replicate]
  omega

theorem padTo_getD_right {cfg : Cfg} {d : List Nat} {j : Nat} (h : d.length ≤ j) :
    (padTo cfg d).getD j cfg.pad_id = cfg.pad_id := by
  rw [List.getD_eq_getElem?_getD, padTo, List.getElem?_append_right h,
    List.getElem?_replicate]
  split <;> simp

theorem padTo_take {cfg : Cfg} (d : List Nat) :
    (padTo cfg d).take d.length = d := by
  rw [padTo, List.take_left]

/-! ## Facts about the greedy trace -/

theorem trace_length (cfg : Cfg) (M : Stub) : ∀ j, (trace cfg M j).length = j := by
  intro j
  induction j with
  | zero => rfl
  | succ j ih => simp [trace, ih]

theorem trace_succ (cfg : Cfg) (M : Stub) (j : Nat) :
    trace cfg M (j + 1) = trace cfg M j ++ [tokAt cfg M j] := rfl

theorem findEosFrom_some_tok (cfg : Cfg) (M : Stub) :
    ∀ (fuel i e : Nat), findEosFrom cfg M fuel i = some e → tokAt cfg M e = cfg.eos_id := by
  intro fuel
  induction fuel with
  | zero => intro i e h; simp [findEosFrom] at h
  | succ fuel ih =>
    intro i e h
    simp only [findEosFrom] at h
    by_cases ht : tokAt cfg M i = cfg.eos_id
    · rw [if_pos ht] at h
      obtain rfl : i = e := by simpa using h
      exact ht
    · rw [if_neg ht] at h
      exact ih (i + 1) e h

theorem findEosFrom_some_bounds (cfg : Cfg) (M : Stub) :
    ∀ (fuel i e : Nat), findEosFrom cfg M fuel i = some e → i ≤ e ∧ e < i + fuel := by
  intro fuel
  induction fuel with
  | zero => intro i e h; simp [findEosFrom] at h
  | succ fuel ih =>
    intro i e h
    simp only [findEosFrom] at h
    by_cases ht : tokAt cfg M i = cfg.eos_id
    · rw [if_pos ht] at h
      obtain rfl : i = e := by simpa using h
      omega
    · rw [if_neg ht] at h
      have := ih (i + 1) e h
      omega

theorem findEosFrom_none_tok (cfg : Cfg) (M : Stub) :
    ∀ (fuel i : Nat), findEosFrom cfg M fuel i = none →
      ∀ j, i ≤ j → j < i + fuel → tokAt cfg M j ≠ cfg.eos_id := by
  intro fuel
  induction fuel with
  | zero => intro i _ j _ hj; omega
  | succ fuel ih =>
    intro i h j hij hj
    simp only [findEosFrom] at h
    by_cases ht : tokAt cfg M i = cfg.eos_id
    · rw [if_pos ht] at h; exact absurd h (by simp)
    · rw [if_neg ht] at h
      by_cases hji : j = i
      · rw [hji]; exact ht
      · exact ih (i + 1) h j (by omega) (by omega)

/-! ## The closed form of the greedy loop -/

theorem greedyStep_tok (cfg : Cfg) (M : Stub) (i : Nat) (buf : List Nat) (cl : Nat) :
    (greedyStep cfg M i buf cl).2.2 = argmaxIdx (M buf i) := by
  simp only [greedyStep]
  split <;> rfl

theorem greedyStep_lt {cfg : Cfg} {M : Stub} {i : Nat} (buf : List Nat) (cl : Nat)
    (h : i < cfg.seq_len - 1) :
    greedyStep cfg M i buf cl = (buf.set (i + 1) (argmaxIdx (M buf i)), cl + 1, argmaxIdx (M buf i)) := by
  simp [greedyStep, h]

theorem greedyStep_ge {cfg : Cfg} {M : Stub} {i : Nat} (buf : List Nat) (cl : Nat)
    (h : ¬ i < cfg.seq_len - 1) :
    greedyStep cfg M i buf cl = (buf, cl, argmaxIdx (M buf i)) := by
  simp [greedyStep, h]

theorem greedyLoop_succ (cfg : Cfg) (M : Stub) (fuel i : Nat) (buf : List Nat) (cl : Nat) :
    greedyLoop cfg M (fuel + 1) i buf cl =
      if argmaxIdx (M buf i) = cfg.eos_id
      then ((greedyStep cfg M i buf cl).1, (greedyStep cfg M i buf cl).2.1)
      else greedyLoop cfg M fuel (i + 1) (greedyStep cfg M i buf cl).1 (greedyStep cfg M i buf cl).2.1 := by
  have htok := greedyStep_tok cfg M i buf cl
  simp only [greedyLoop]
  rcases hs : greedyStep cfg M i buf cl with ⟨b1, c1, w⟩
  rw [hs] at htok
  dsimp only
  dsimp only at htok
  rw [htok]

theorem greedyLoop_spec (cfg : Cfg) (M : Stub) :
    ∀ (fuel i : Nat), 1 ≤ fuel → i + fuel = cfg.seq_len →
      greedyLoop cfg M fuel i (padTo cfg (cfg.sos_id :: trace cfg M i)) (i + 1) =
        match findEosFrom cfg M fuel i with
        | some e =>
          if e + 1 < cfg.seq_len
          then (padTo cfg (cfg.sos_id :: trace cfg M (e + 1)), e + 2)
          else (padTo cfg (cfg.sos_id :: trace cfg M (cfg.seq_len - 1)), cfg.seq_len)
        | none => (padTo cfg (cfg.sos_id :: trace cfg M (cfg.seq_len - 1)), cfg.seq_len) := by
  intro fuel
  induction fuel with
  | zero => intro i h1 _; exact absurd h1 (by omega)
  | succ fuel ih =>
    intro i h1 hL
    have hw : argmaxIdx (M (padTo cfg (cfg.sos_id :: trace cfg M i)) i) = tokAt cfg M i := rfl
    rw [greedyLoop_succ, hw]
    have hL1 : cfg.seq_len - 1 + 1 = cfg.seq_len := by omega
    by_cases hfz : fuel = 0
    · subst hfz
      have hi : i = cfg.seq_len - 1 := by omega
      have hnotlt : ¬ i < cfg.seq_len - 1 := by omega
      rw [greedyStep_ge _ _ hnotlt]
      dsimp only
      simp only [findEosFrom]
      by_cases ht : tokAt cfg M i = cfg.eos_id
      · rw [if_pos ht, if_pos ht]
        dsimp only
        have h2 : ¬ i + 1 < cfg.seq_len := by omega
        rw [if_neg h2, hi, hL1]
      · rw [if_neg ht, if_neg ht]
        dsimp only
        simp only [greedyLoop]
        rw [hi, hL1]
    · have hlt : i < cfg.seq_len - 1 := by omega
      rw [greedyStep_lt _ _ hlt]
      dsimp only
      have hset : (padTo cfg (cfg.sos_id :: trace cfg M i)).set (i + 1)
            (argmaxIdx (M (padTo cfg (cfg.sos_id :: trace cfg M i)) i))
          = padTo cfg (cfg.sos_id :: trace cfg M (i + 1)) := by
        have hlen : (cfg.sos_id :: trace cfg M i).length = i + 1 := by
          simp [trace_length]
        have hlen2 : (cfg.sos_id :: trace cfg M i).length < cfg.seq_len := by omega
        have hps := padTo_set hlen2 (argmaxIdx (M (padTo cfg (cfg.sos_id :: trace cfg M i)) i))
        rw [hlen] at hps
        rw [hps, trace_succ]
        rfl
      rw [hset]
      simp only [findEosFrom]
      by_cases ht : tokAt cfg M i = cfg.eos_id
      · rw [if_pos ht, if_pos ht]
        dsimp only
        have h2 : i + 1 < cfg.seq_len := by omega
        rw [if_pos h2]
      · rw [if_neg ht, if_neg ht]
        exact ih (i + 1) (by omega) (by omega)

theorem greedyInitBuf_eq (cfg : Cfg) (h : 1 ≤ cfg.seq_len) :
    greedyInitBuf cfg = padTo cfg [cfg.sos_id] := by
  unfold greedyInitBuf padTo
  obtain ⟨L2, hL⟩ : ∃ L2, cfg.seq_len = L2 + 1 := ⟨cfg.seq_len - 1, by omega⟩
  rw [hL]
  simp [List.replicate_succ]

theorem greedyState_spec (cfg : Cfg) (M : Stub) (h : 1 ≤ cfg.seq_len) :
    greedyState cfg M =
      match findEosFrom cfg M cfg.seq_len 0 with
      | some e =>
        if e + 1 < cfg.seq_len
        then (padTo cfg (cfg.sos_id :: trace cfg M (e + 1)), e + 2)
        else (padTo cfg (cfg.sos_id :: trace cfg M (cfg.seq_len - 1)), cfg.seq_len)
      | none => (padTo cfg (cfg.sos_id :: trace cfg M (cfg.seq_len - 1)), cfg.seq_len) := by
  unfold greedyState
  rw [greedyInitBuf_eq cfg h]
  have hs := greedyLoop_spec cfg M cfg.seq_len 0 h (by omega)
  simpa [trace] using hs

/-- Output extraction on a buffer whose written prefix already fills the whole
length: the two extraction branches agree. -/
theorem extract_full {cfg : Cfg} {a : Nat} {t : List Nat}
    (hlen : (a :: t).length = cfg.seq_len) :
    (if (padTo cfg (a :: t)).getD (cfg.seq_len - 1) cfg.pad_id = cfg.pad_id
     then ((padTo cfg (a :: t)).take cfg.seq_len).drop 1
     else (padTo cfg (a :: t)).drop 1) = t := by
  have hpe : padTo cfg (a :: t) = a :: t := padTo_eq_self (le_of_eq hlen.symm)
  rw [hpe, ← hlen, List.take_length]
  split <;> rfl

theorem greedyIds_eq (cfg : Cfg) (M : Stub) (h : 1 ≤ cfg.seq_len) :
    greedyIds cfg M =
      match findEosFrom cfg M cfg.seq_len 0 with
      | some e =>
        if e + 1 < cfg.seq_len then trace cfg M (e + 1) else trace cfg M (cfg.seq_len - 1)
      | none => trace cfg M (cfg.seq_len - 1) := by
  have htl : ∀ j, (cfg.sos_id :: trace cfg M j).length = j + 1 := by
    intro j; simp [trace_length]
  unfold greedyIds
  rw [greedyState_spec cfg M h]
  cases hf : findEosFrom cfg M cfg.seq_len 0 with
  | none =>
    dsimp only
    exact extract_full (by rw [htl]; omega)
  | some e =>
    dsimp only
    by_cases h2 : e + 1 < cfg.seq_len
    · rw [if_pos h2, if_pos h2]
      dsimp only
      by_cases h3 : e + 2 < cfg.seq_len
      · have hpad : (padTo cfg (cfg.sos_id :: trace cfg M (e + 1))).getD
            (cfg.seq_len - 1) cfg.pad_id = cfg.pad_id :=
          padTo_getD_right (by rw [htl]; omega)
        rw [if_pos hpad]
        have htake : (padTo cfg (cfg.sos_id :: trace cfg M (e + 1))).take (e + 2)
            = cfg.sos_id :: trace cfg M (e + 1) := by
          have := @padTo_take cfg (cfg.sos_id :: trace cfg M (e + 1))
          rwa [htl] at this
        rw [htake]
        rfl
      · have hlen : (cfg.sos_id :: trace cfg M (e + 1)).length = cfg.seq_len := by
          rw [htl]; omega
        have := extract_full hlen
        have he2 : e + 2 = cfg.seq_len := by omega
        rw [he2]
        exact this
    · rw [if_neg h2, if_neg h2]
      dsimp only
      exact extract_full (by rw [htl]; omega)

/-! ### The beam loop with beam size one follows the greedy trace -/

theorem beamLoop_succ (cfg : Cfg) (M : Stub) (fuel pos : Nat) (q : List BeamNode) (fc : Nat) :
    beamLoop cfg M (fuel + 1) pos q fc =
      if (beamPosStep cfg M pos q fc).2 = cfg.beam_size
      then ((beamPosStep cfg M pos q fc).1, (beamPosStep cfg M pos q fc).2, 1)
      else ((beamLoop cfg M fuel (pos + 1) (beamPosStep cfg M pos q fc).1 (beamPosStep cfg M pos q fc).2).1,
            (beamLoop cfg M fuel (pos + 1) (beamPosStep cfg M pos q fc).1 (beamPosStep cfg M pos q fc).2).2.1,
            (beamLoop cfg M fuel (pos + 1) (beamPosStep cfg M pos q fc).1 (beamPosStep cfg M pos q fc).2).2.2 + 1) := by
  simp only [beamLoop]

theorem beamPosStep_single (cfg : Cfg) (M : Stub) (hbs : cfg.beam_size = 1)
    (pos : Nat) (n : BeamNode) (hfin : n.is_finished = false) (fc : Nat)
    (hM : M (padTo cfg n.decoded) pos ≠ []) :
    ∃ v, beamPosStep cfg M pos [n] fc =
      ([mkChild cfg n (argmaxIdx (M (padTo cfg n.decoded) pos), v)],
       fc + (if argmaxIdx (M (padTo cfg n.decoded) pos) = cfg.eos_id then 1 else 0)) := by
  obtain ⟨v, hv⟩ := topkList_one hM
  refine ⟨v, ?_⟩
  unfold beamPosStep
  rw [hbs]
  have hpq : pqGet? [n] = some (n, []) := by simp [pqGet?]
  have hexp : expandNode cfg M pos n = [(argmaxIdx (M (padTo cfg n.decoded) pos), v)] := by
    rw [expandNode, hbs, hv]
  simp only [beamInner, hpq, hfin, hexp]
  by_cases ht : argmaxIdx (M (padTo cfg n.decoded) pos) = cfg.eos_id
  · simp [ht, List.filter]
  · simp [ht, List.filter]

theorem beamLoop1_spec (cfg : Cfg) (M : Stub) (hbs : cfg.beam_size = 1)
    (hM : ∀ b p, M b p ≠ []) :
    ∀ (fuel pos : Nat) (n : BeamNode), n.decoded = cfg.sos_id :: trace cfg M pos →
      n.is_finished = false →
      ∃ m : BeamNode,
        (beamLoop cfg M fuel pos [n] 0).1 = [m] ∧
        (match findEosFrom cfg M fuel pos with
         | some e => m.decoded = cfg.sos_id :: (trace cfg M e ++ [cfg.eos_id]) ∧ m.is_finished = true
         | none => m.decoded = cfg.sos_id :: trace cfg M (pos + fuel) ∧ m.is_finished = false) := by
  intro fuel
  induction fuel with
  | zero =>
    intro pos n hd hf
    refine ⟨n, rfl, ?_⟩
    simp only [findEosFrom]
    exact ⟨by simpa using hd, hf⟩
  | succ fuel ih =>
    intro pos n hd hf
    obtain ⟨v, hstep⟩ := beamPosStep_single cfg M hbs pos n hf 0 (hM _ _)
    have ham : argmaxIdx (M (padTo cfg n.decoded) pos) = tokAt cfg M pos := by
      rw [hd]; rfl
    rw [ham] at hstep
    rw [beamLoop_succ, hstep]
    dsimp only
    by_cases ht : tokAt cfg M pos = cfg.eos_id
    · rw [if_pos ht]
      have hcond : 0 + (1 : Nat) = cfg.beam_size := by rw [hbs]
      rw [if_pos hcond]
      refine ⟨mkChild cfg n (tokAt cfg M pos, v), rfl, ?_⟩
      simp only [findEosFrom, if_pos ht]
      constructor
      · rw [mkChild, if_pos ht]
        dsimp only
        rw [hd, ht]
        rfl
      · rw [mkChild, if_pos ht]
    · rw [if_neg ht]
      have hcond : ¬ ((0 : Nat) + 0 = cfg.beam_size) := by
        rw [hbs]; omega
      rw [if_neg hcond]
      have hchild_dec : (mkChild cfg n (tokAt cfg M pos, v)).decoded
          = cfg.sos_id :: trace cfg M (pos + 1) := by
        rw [mkChild, if_neg ht]
        dsimp only
        rw [hd, trace_succ]
        rfl
      have hchild_fin : (mkChild cfg n (tokAt cfg M pos, v)).is_finished = false := by
        rw [mkChild, if_neg ht]
      have hfc0 : (0 : Nat) + 0 = 0 := rfl
      rw [hfc0]
      obtain ⟨m, hm1, hm2⟩ := ih (pos + 1) (mkChild cfg n (tokAt cfg M pos, v)) hchild_dec hchild_fin
      refine ⟨m, hm1, ?_⟩
      simp only [findEosFrom, if_neg ht]
      have harith : pos + (fuel + 1) = (pos + 1) + fuel := by omega
      rw [harith]
      exact hm2

theorem beamIds_eq1 (cfg : Cfg) (M : Stub) (hbs : cfg.beam_size = 1) (hL : 1 ≤ cfg.seq_len)
    (hM : ∀ b p, M b p ≠ []) :
    beamIds cfg M =
      match findEosFrom cfg M cfg.seq_len 0 with
      | some e => trace cfg M e
      | none => trace cfg M cfg.seq_len := by
  have hinit : initQueue cfg = [startNode cfg] := by
    simp [initQueue, hbs, pqPut, List.range_succ]
  obtain ⟨m, hm1, hm2⟩ := beamLoop1_spec cfg M hbs hM cfg.seq_len 0 (startNode cfg) rfl rfl
  unfold beamIds beamFinal
  rw [hinit, hm1]
  have hpq : pqGet? [m] = some (m, []) := by simp [pqGet?]
  rw [hpq]
  dsimp only
  cases hf : findEosFrom cfg M cfg.seq_len 0 with
  | some e =>
    rw [hf] at hm2
    obtain ⟨hdec, _⟩ := hm2
    have hlast : m.decoded.getLast? = some cfg.eos_id := by
      rw [hdec]
      rw [show cfg.sos_id :: (trace cfg M e ++ [cfg.eos_id])
            = (cfg.sos_id :: trace cfg M e) ++ [cfg.eos_id] from rfl]
      exact List.getLast?_concat _
    rw [if_pos hlast, hdec]
    rw [show cfg.sos_id :: (trace cfg M e ++ [cfg.eos_id])
          = (cfg.sos_id :: trace cfg M e) ++ [cfg.eos_id] from rfl]
    simp [List.dropLast_concat]
  | none =>
    rw [hf] at hm2
    obtain ⟨hdec, _⟩ := hm2
    rw [Nat.zero_add] at hdec
    have hL1 : cfg.seq_len - 1 + 1 = cfg.seq_len := by omega
    have htr : trace cfg M cfg.seq_len
        = trace cfg M (cfg.seq_len - 1) ++ [tokAt cfg M (cfg.seq_len - 1)] := by
      rw [← trace_succ, hL1]
    have hne : tokAt cfg M (cfg.seq_len - 1) ≠ cfg.eos_id :=
      findEosFrom_none_tok cfg M cfg.seq_len 0 hf (cfg.seq_len - 1) (by omega) (by omega)
    have hlast : ¬ m.decoded.getLast? = some cfg.eos_id := by
      rw [hdec, htr]
      rw [show cfg.sos_id :: (trace cfg M (cfg.seq_len - 1) ++ [tokAt cfg M (cfg.seq_len - 1)])
            = (cfg.sos_id :: trace cfg M (cfg.seq_len - 1)) ++ [tokAt cfg M (cfg.seq_len - 1)] from rfl]
      rw [List.getLast?_concat]
      simp [hne]
    rw [if_neg hlast, hdec]
    simp

/-! ### The loop-stop bound for the finished tally -/

theorem beamLoop_stop_le (cfg : Cfg) (M : Stub) :
    ∀ (k fuel pos : Nat) (q : List BeamNode) (fc : Nat),
      ((stepState cfg M)^[k + 1] (pos, q, fc)).2.2 = cfg.beam_size →
      (beamLoop cfg M fuel pos q fc).2.2 ≤ k + 1 := by
  intro k
  induction k with
  | zero =>
    intro fuel pos q fc h
    rw [Function.iterate_one] at h
    simp only [stepState] at h
    cases fuel with
    | zero => simp [beamLoop]
    | succ fuel =>
      rw [beamLoop_succ, if_pos h]
  | succ k ih =>
    intro fuel pos q fc h
    cases fuel with
    | zero => simp [beamLoop]
    | succ fuel =>
      rw [beamLoop_succ]
      by_cases hc : (beamPosStep cfg M pos q fc).2 = cfg.beam_size
      · rw [if_pos hc]
        dsimp only
        omega
      · rw [if_neg hc]
        dsimp only
        have h2 : ((stepState cfg M)^[k + 1]
            (pos + 1, (beamPosStep cfg M pos q fc).1, (beamPosStep cfg M pos q fc).2)).2.2
            = cfg.beam_size := by
          rw [Function.iterate_succ_apply] at h
          exact h
        have h3 := ih fuel (pos + 1) (beamPosStep cfg M pos q fc).1 (beamPosStep cfg M pos q fc).2 h2
        omega

/-! ### Score bookkeeping: the queue invariant of beam search -/

theorem pqGet?_none_iff {q : List BeamNode} : pqGet? q = none ↔ q = [] := by
  cases q with
  | nil => simp [pqGet?]
  | cons n rest =>
    simp only [pqGet?]
    cases hr : pqGet? rest with
    | none => simp
    | some pr =>
      obtain ⟨m, rem⟩ := pr
      by_cases hc : m.prob < n.prob <;> simp [hc]

theorem pqGet?_perm :
    ∀ {q : List BeamNode} {n : BeamNode} {rest : List BeamNode},
      pqGet? q = some (n, rest) → q.Perm (n :: rest) := by
  intro q
  induction q with
  | nil => intro n rest h; simp [pqGet?] at h
  | cons p t ih =>
    intro n rest h
    simp only [pqGet?] at h
    cases hr : pqGet? t with
    | none =>
      rw [hr] at h
      rw [pqGet?_none_iff.mp hr]
      simp only [Option.some.injEq, Prod.mk.injEq] at h
      rw [h.1, h.2]
    | some pr =>
      obtain ⟨m, rem⟩ := pr
      rw [hr] at h
      dsimp only at h
      by_cases hc : m.prob < p.prob
      · rw [if_pos hc] at h
        simp only [Option.some.injEq, Prod.mk.injEq] at h
        obtain ⟨rfl, rfl⟩ := h
        exact ((ih hr).cons p).trans (List.Perm.swap m p rem)
      · rw [if_neg hc] at h
        simp only [Option.some.injEq, Prod.mk.injEq] at h
        rw [h.1, h.2]

theorem pqGet?_mem {q : List BeamNode} {n : BeamNode} {rest : List BeamNode}
    (h : pqGet? q = some (n, rest)) : n ∈ q ∧ ∀ x ∈ rest, x ∈ q := by
  constructor
  · exact (pqGet?_perm h).mem_iff.mpr (List.mem_cons_self n rest)
  · intro x hx
    exact (pqGet?_perm h).mem_iff.mpr (List.mem_cons_of_mem n hx)

theorem rawScore_singleton (cfg : Cfg) (M : Stub) (x : Nat) :
    rawScore cfg M [x] = 0 := by
  simp [rawScore]

theorem rawScore_append (cfg : Cfg) (M : Stub) {d : List Nat} (hd : d ≠ []) (w : Nat) :
    rawScore cfg M (d ++ [w])
      = rawScore cfg M d + -((M (padTo cfg d) (d.length - 1)).getD w 0) := by
  obtain ⟨nl, hn⟩ : ∃ nl, d.length = nl + 1 := by
    cases d with
    | nil => exact absurd rfl hd
    | cons a t => exact ⟨t.length, by simp⟩
  unfold rawScore
  rw [List.length_append]
  simp only [List.length_cons, List.length_nil]
  rw [hn]
  have h1 : nl + 1 + (0 + 1) - 1 = nl + 1 := by omega
  have h2 : nl + 1 - 1 = nl := by omega
  rw [h1, h2, Finset.sum_range_succ]
  congr 1
  · apply Finset.sum_congr rfl
    intro j hj
    rw [Finset.mem_range] at hj
    have hjlt : j + 1 < d.length := by omega
    rw [List.take_append_of_le_length (by omega : j + 1 ≤ d.length)]
    rw [List.getD_append _ _ _ _ hjlt]
  · rw [show nl + 1 = d.length from hn.symm]
    rw [List.take_left]
    have hget : (d ++ [w]).getD d.length 0 = w := by
      rw [List.getD_eq_getElem?_getD, List.getElem?_append_right (le_refl d.length)]
      simp
    rw [hget]

theorem scoreInv_finished_step {cfg : Cfg} {M : Stub} {k : Nat} {n : BeamNode}
    (h : scoreInv cfg M k n) (hf : n.is_finished = true) : scoreInv cfg M (k + 1) n := by
  constructor
  · intro hff
    rw [hf] at hff
    exact absurd hff (by simp)
  · intro _
    exact h.2 hf

theorem scoreInv_child {cfg : Cfg} {M : Stub} {k : Nat} {parent : BeamNode}
    (hfin : parent.is_finished = false) (hInv : scoreInv cfg M k parent) {p : Nat × ℚ}
    (hp : p ∈ expandNode cfg M k parent) :
    scoreInv cfg M (k + 1) (mkChild cfg parent p) := by
  obtain ⟨hlen, hprob⟩ := hInv.1 hfin
  have hv : (M (padTo cfg parent.decoded) k).getD p.1 0 = p.2 := topkList_mem hp
  have hdne : parent.decoded ≠ [] := by
    intro hx
    rw [hx] at hlen
    simp at hlen
  have hraw : rawScore cfg M (parent.decoded ++ [p.1]) = -(-parent.prob + p.2) := by
    rw [rawScore_append cfg M hdne p.1, hlen, Nat.add_sub_cancel, hv, hprob]
    ring
  have hlen2 : (parent.decoded ++ [p.1]).length = k + 2 := by
    simp [hlen]
  unfold mkChild
  by_cases he : p.1 = cfg.eos_id
  · rw [if_pos he]
    constructor
    · intro hff
      exact absurd hff (by simp)
    · intro _
      dsimp only
      rw [hraw, hlen2, hlen]
  · rw [if_neg he]
    constructor
    · intro _
      exact ⟨hlen2, hraw.symm⟩
    · intro hff
      exact absurd hff (by simp)

theorem beamInner_inv (cfg : Cfg) (M : Stub) (k : Nat) :
    ∀ (t : Nat) (cur acc : List BeamNode) (fc : Nat),
      (∀ n ∈ cur, scoreInv cfg M k n) → (∀ n ∈ acc, scoreInv cfg M (k + 1) n) →
      ∀ n ∈ (beamInner cfg M k t cur acc fc).1, scoreInv cfg M (k + 1) n := by
  intro t
  induction t with
  | zero =>
    intro cur acc fc _ hacc n hn
    simp only [beamInner] at hn
    exact hacc n hn
  | succ t ih =>
    intro cur acc fc hcur hacc n hn
    simp only [beamInner] at hn
    cases hq : pqGet? cur with
    | none =>
      rw [hq] at hn
      exact hacc n hn
    | some pr =>
      obtain ⟨node, rest⟩ := pr
      rw [hq] at hn
      dsimp only at hn
      have hmem := pqGet?_mem hq
      have hnode : scoreInv cfg M k node := hcur _ hmem.1
      have hrest : ∀ x ∈ rest, scoreInv cfg M k x := fun x hx => hcur _ (hmem.2 x hx)
      by_cases hfin : node.is_finished = true
      · rw [if_pos hfin] at hn
        refine ih rest (pqPut acc node) fc hrest ?_ n hn
        intro m hm
        rcases List.mem_append.mp hm with h1 | h1
        · exact hacc m h1
        · have hmn : m = node := by simpa [pqPut] using h1
          rw [hmn]
          exact scoreInv_finished_step hnode hfin
      · rw [if_neg hfin] at hn
        refine ih rest _ _ hrest ?_ n hn
        intro m hm
        rcases List.mem_append.mp hm with h1 | h1
        · exact hacc m h1
        · obtain ⟨p, hp, hpm⟩ := List.mem_map.mp h1
          rw [← hpm]
          have hfin2 : node.is_finished = false := by
            cases hfb : node.is_finished
            · rfl
            · exact absurd hfb hfin
          exact scoreInv_child hfin2 hnode hp

theorem foldl_put_const (x : BeamNode) :
    ∀ (l : List Nat) (acc : List BeamNode),
      l.foldl (fun q _ => pqPut q x) acc = acc ++ List.replicate l.length x := by
  intro l
  induction l with
  | nil => intro acc; simp
  | cons a t ih =>
    intro acc
    rw [List.foldl_cons, ih]
    simp [pqPut, List.replicate_succ]

theorem initQueue_eq (cfg : Cfg) :
    initQueue cfg = List.replicate cfg.beam_size (startNode cfg) := by
  unfold initQueue
  rw [foldl_put_const]
  simp

theorem startNode_inv (cfg : Cfg) (M : Stub) : scoreInv cfg M 0 (startNode cfg) := by
  constructor
  · intro _
    refine ⟨rfl, ?_⟩
    have hr : rawScore cfg M (startNode cfg).decoded = 0 :=
      rawScore_singleton cfg M cfg.sos_id
    rw [hr]
    simp [startNode]
  · intro hf
    exact absurd hf (by simp [startNode])

theorem beamStateFull_fst (cfg : Cfg) (M : Stub) :
    ∀ k, (beamStateFull cfg M k).1 = k := by
  intro k
  induction k with
  | zero => rfl
  | succ k ih =>
    unfold beamStateFull
    rw [Function.iterate_succ_apply']
    unfold beamStateFull at ih
    simp [stepState, ih]

theorem beamStateFull_inv (cfg : Cfg) (M : Stub) :
    ∀ (k : Nat), ∀ n ∈ (beamStateFull cfg M k).2.1, scoreInv cfg M k n := by
  intro k
  induction k with
  | zero =>
    intro n hn
    have : (beamStateFull cfg M 0).2.1 = initQueue cfg := rfl
    rw [this, initQueue_eq] at hn
    rw [List.eq_of_mem_replicate hn]
    exact startNode_inv cfg M
  | succ k ih =>
    intro n hn
    have hstep : beamStateFull cfg M (k + 1) = stepState cfg M (beamStateFull cfg M k) := by
      unfold beamStateFull
      rw [Function.iterate_succ_apply']
    rw [hstep] at hn
    unfold stepState at hn
    rw [beamStateFull_fst] at hn
    dsimp only at hn
    unfold beamPosStep at hn
    exact beamInner_inv cfg M k cfg.beam_size _ [] _ ih (by simp) n hn

/-! ### Duplication of the initial beam -/

theorem pqGet?_replicate (x : BeamNode) :
    ∀ n, pqGet? (List.replicate (n + 1) x) = some (x, List.replicate n x) := by
  intro n
  induction n with
  | zero => simp [pqGet?, List.replicate]
  | succ n ih =>
    rw [List.replicate_succ x (n + 1)]
    have hunfold : pqGet? (x :: List.replicate (n + 1) x)
        = match pqGet? (List.replicate (n + 1) x) with
          | none => some (x, [])
          | some (m, rem) =>
            if m.prob < x.prob then some (m, x :: rem) else some (x, List.replicate (n + 1) x) := rfl
    rw [hunfold, ih]
    dsimp only
    rw [if_neg (lt_irrefl x.prob)]

theorem beamInner_replicate_count (cfg : Cfg) (M : Stub) (pos : Nat) (start : BeamNode)
    (hf : start.is_finished = false) (c : BeamNode) :
    ∀ (n : Nat) (acc : List BeamNode) (fc : Nat),
      ((beamInner cfg M pos n (List.replicate n start) acc fc).1).count c
        = acc.count c + n * (((expandNode cfg M pos start).map (mkChild cfg start)).count c) := by
  intro n
  induction n with
  | zero => intro acc fc; simp [beamInner]
  | succ n ih =>
    intro acc fc
    simp only [beamInner]
    rw [pqGet?_replicate start n]
    dsimp only
    rw [hf, if_neg (by simp : ¬(false = true))]
    rw [ih]
    rw [List.count_append]
    ring

/-! ### The checkpoint-write characterisation -/

theorem trainGo_writes_mem (k : Nat) :
    ∀ (ls : List ℚ) (best : ℚ) (e : Nat),
      k ∈ (trainGo ls best e).2 ↔
        ∃ i, i < ls.length ∧ k = e + i ∧ ls.getD i 0 < (ls.take i).foldl min best := by
  intro ls
  induction ls with
  | nil => intro best e; simp [trainGo]
  | cons l t ih =>
    intro best e
    by_cases hl : l < best
    · simp only [trainGo, if_pos hl]
      rcases hg : trainGo t l (e + 1) with ⟨b, w⟩
      dsimp only
      have ihw : k ∈ w ↔ ∃ i, i < t.length ∧ k = (e + 1) + i ∧
          t.getD i 0 < (t.take i).foldl min l := by
        have := ih l (e + 1)
        rw [hg] at this
        exact this
      constructor
      · intro hk
        rcases List.mem_cons.mp hk with rfl | hk2
        · exact ⟨0, by simp, by omega, by simpa using hl⟩
        · obtain ⟨i, hi1, hi2, hi3⟩ := ihw.mp hk2
          refine ⟨i + 1, by simpa using hi1, by omega, ?_⟩
          simpa [min_eq_right (le_of_lt hl)] using hi3
      · rintro ⟨i, hi1, hi2, hi3⟩
        cases i with
        | zero =>
          have hke : k = e := by omega
          rw [hke]
          exact List.mem_cons_self e w
        | succ i =>
          apply List.mem_cons_of_mem
          apply ihw.mpr
          refine ⟨i, by simpa using hi1, by omega, ?_⟩
          simpa [min_eq_right (le_of_lt hl)] using hi3
    · simp only [trainGo, if_neg hl]
      rw [ih best (e + 1)]
      constructor
      · rintro ⟨i, hi1, hi2, hi3⟩
        refine ⟨i + 1, by simpa using hi1, by omega, ?_⟩
        have hbl : min best l = best := min_eq_left (le_of_not_lt hl)
        simpa [hbl] using hi3
      · rintro ⟨i, hi1, hi2, hi3⟩
        cases i with
        | zero =>
          exfalso
          apply hl
          simpa using hi3
        | succ i =>
          refine ⟨i, by simpa using hi1, by omega, ?_⟩
          have hbl : min best l = best := min_eq_left (le_of_not_lt hl)
          simpa [hbl] using hi3

/-! ### The decoder-mask entry formula -/

theorem d_mask_of_entry (cfg : Cfg) (trg : List Nat) (hlen : trg.length = cfg.seq_len)
    {i j : Nat} (hi : i < cfg.seq_len) (hj : j < cfg.seq_len) :
    ((d_mask_of cfg trg).getD i []).getD j false
      = ((trg.getD j cfg.pad_id != cfg.pad_id) && decide (j ≤ i)) := by
  have hrow : (d_mask_of cfg trg).getD i []
      = List.zipWith (fun a b => a && b) (trg.map (fun t => t != cfg.pad_id))
          ((List.range cfg.seq_len).map (fun j => decide (j ≤ i))) := by
    unfold d_mask_of trilMask
    rw [List.getD_eq_getElem?_getD, List.getElem?_map, List.getElem?_map,
      List.getElem?_range hi]
    rfl
  rw [hrow]
  have hjz : j < (List.zipWith (fun a b => a && b) (trg.map (fun t => t != cfg.pad_id))
      ((List.range cfg.seq_len).map (fun j => decide (j ≤ i)))).length := by
    rw [List.length_zipWith]
    simp [hlen]
    omega
  rw [List.getD_eq_getElem _ _ hjz, List.getElem_zipWith]
  have hjt : j < trg.length := by omega
  rw [List.getElem_map, List.getElem_map, List.getElem_range]
  rw [List.getD_eq_getElem _ _ hjt]

/-- C5 (confirmed): for every token sequence of length at most L, padded to
the fixed buffer length as at every call site, the decoder mask marks (i, j)
attendable iff j ≤ i and the token at position j is not the pad id. -/
theorem C5_decoder_mask_tril_and_padding (cfg : Cfg) (ts : List Nat)
    (hlen : ts.length ≤ cfg.seq_len) (i j : Nat)
    (hi : i < cfg.seq_len) (hj : j < cfg.seq_len) :
    (((make_mask cfg ts (padTo cfg ts)).2).getD i []).getD j false = true
      ↔ (j ≤ i ∧ (padTo cfg ts).getD j cfg.pad_id ≠ cfg.pad_id) := by
  have hpl : (padTo cfg ts).length = cfg.seq_len := padTo_length hlen
  have hentry := d_mask_of_entry cfg (padTo cfg ts) hpl hi hj
  rw [show (make_mask cfg ts (padTo cfg ts)).2 = d_mask_of cfg (padTo cfg ts) from rfl]
  rw [hentry]
  simp only [Bool.and_eq_true, bne_iff_ne, ne_eq, decide_eq_true_eq]
  constructor
  · rintro ⟨h1, h2⟩; exact ⟨h2, h1⟩
  · rintro ⟨h1, h2⟩; exact ⟨h2, h1⟩

theorem C5_decoder_mask_tril_and_padding_witness :
    (((make_mask cfgB1 [7, 0, 9] (padTo cfgB1 [7, 0, 9])).2).getD 2 []).getD 1 false = true
      ↔ (1 ≤ 2 ∧ (padTo cfgB1 [7, 0, 9]).getD 1 cfgB1.pad_id ≠ cfgB1.pad_id) :=
  C5_decoder_mask_tril_and_padding cfgB1 [7, 0, 9] (by decide) 2 1 (by decide) (by decide)

/-- C2 (code_bug): with a decode method other than greedy or beam,
Manager.inference (the path the CLI uses) fails with an unbound-name error at
the result print, not with an InvalidArgument (ValueError); the module-level
inference duplicate does raise the ValueError.  Neither path produces a
translation. -/
theorem C2_invalid_method_dispatch :
    managerInferenceDispatch "xyz" [3] [4]
        = Except.error (PyErr.nameError "name result is not defined") ∧
      moduleInferenceDispatch "xyz" [3] [4]
        = Except.error (PyErr.valueError "Invalid decoding method. Choose greedy or beam.") ∧
      isInvalidArg (managerInferenceDispatch "xyz" [3] [4]) = false := by
  refine ⟨?_, ?_, ?_⟩ <;>
    simp [managerInferenceDispatch, moduleInferenceDispatch, isInvalidArg]

/-- C7 (confirmed): the best checkpoint is written after epoch k exactly when
that epoch's validation loss is strictly below the best seen so far (the
minimum of the initial best and all earlier losses); on the scripted loss
sequence [2.0, 1.5, 1.8, 1.2] the checkpoint is written after epochs 1, 2
and 4 only. -/
theorem C7_checkpoint_on_strict_improvement :
    (∀ (losses : List ℚ) (k : Nat),
        k ∈ ckptWrites losses ↔
          ∃ i, i < losses.length ∧ k = 1 + i ∧
            losses.getD i 0 < (losses.take i).foldl min floatMax) ∧
    ckptWrites [2, 3/2, 9/5, 6/5] = [1, 2, 4] := by
  constructor
  · intro losses k
    exact trainGo_writes_mem k losses floatMax 1
  · norm_num [ckptWrites, trainGo, floatMax]

/-- C8 (corrected): best_loss starts at sys.float_info.max, and the first
epoch writes a checkpoint exactly when its validation loss is strictly below
that value; a loss equal to the maximum float (which is still a finite float)
does not trigger the write. -/
theorem C8_first_epoch_writes_below_max (l : ℚ) (ls : List ℚ) (h : l < floatMax) :
    (ckptWrites (l :: ls)).head? = some 1 := by
  unfold ckptWrites
  simp only [trainGo, if_pos h]
  rcases htg : trainGo ls l (1 + 1) with ⟨b, w⟩
  rfl

theorem C8_first_epoch_writes_below_max_witness :
    (2 : ℚ) < floatMax ∧ (ckptWrites [(2 : ℚ)]).head? = some 1 := by
  have h2 : (2 : ℚ) < floatMax := by norm_num [floatMax]
  exact ⟨h2, C8_first_epoch_writes_below_max 2 [] h2⟩

/-- C8 counterexample: a validation loss equal to sys.float_info.max is a
finite float, yet the first epoch writes no checkpoint, because the
comparison is strict. -/
theorem C8_counterexample : ckptWrites [floatMax] = [] := by
  unfold ckptWrites
  simp [trainGo, lt_irrefl]

/-! ### Shape of the greedy final state -/

theorem greedy_extract_shape (cfg : Cfg) (M : Stub) (t : Nat)
    (hs : greedyState cfg M = (padTo cfg (cfg.sos_id :: trace cfg M t), t + 1))
    (hg : greedyIds cfg M = trace cfg M t) (hle : t + 1 ≤ cfg.seq_len) :
    ∃ d : List Nat, greedyState cfg M = (padTo cfg d, d.length) ∧
      1 ≤ d.length ∧ d.length ≤ cfg.seq_len ∧ greedyIds cfg M = d.drop 1 ∧
      ∀ j, d.length ≤ j → (greedyState cfg M).1.getD j cfg.pad_id = cfg.pad_id := by
  have hdl : (cfg.sos_id :: trace cfg M t).length = t + 1 := by simp [trace_length]
  refine ⟨cfg.sos_id :: trace cfg M t, ?_, by simp, by omega, by rw [hg]; rfl, ?_⟩
  · rw [hs, hdl]
  · intro j hj
    rw [hs]
    dsimp only
    apply padTo_getD_right
    omega

/-- C6 (confirmed): the greedy extraction returns exactly the written tokens
after the leading start token: the final state is a written prefix d padded
with pad up to L, cur_len equals the length of d, every position from cur_len
on holds the (unwritten) pad id, and the returned ids are d without its head
-- so the pad-branch returns positions 1 up to (excluding) the first
unwritten pad position cur_len, and the other branch positions 1 to L-1.  On
the spec's scenario (pad=0, sos=1, eos=2, a=3, b=4, L=5, stub predicting a
then eos) the decoder returns [3, 2]. -/
theorem C6_greedy_output_extraction :
    (∀ (cfg : Cfg) (M : Stub), 1 ≤ cfg.seq_len →
      ∃ d : List Nat, greedyState cfg M = (padTo cfg d, d.length) ∧
        1 ≤ d.length ∧ d.length ≤ cfg.seq_len ∧ greedyIds cfg M = d.drop 1 ∧
        ∀ j, d.length ≤ j → (greedyState cfg M).1.getD j cfg.pad_id = cfg.pad_id) ∧
    greedyIds cfgB1 stubAB = [3, 2] := by
  constructor
  · intro cfg M hL
    have hs := greedyState_spec cfg M hL
    have hg := greedyIds_eq cfg M hL
    have hL1 : cfg.seq_len - 1 + 1 = cfg.seq_len := by omega
    cases hf : findEosFrom cfg M cfg.seq_len 0 with
    | some e =>
      rw [hf] at hs hg
      dsimp only at hs hg
      by_cases h2 : e + 1 < cfg.seq_len
      · rw [if_pos h2] at hs hg
        exact greedy_extract_shape cfg M (e + 1) hs hg (by omega)
      · rw [if_neg h2] at hs hg
        refine greedy_extract_shape cfg M (cfg.seq_len - 1) ?_ hg (by omega)
        rw [hs, hL1]
    | none =>
      rw [hf] at hs hg
      dsimp only at hs hg
      refine greedy_extract_shape cfg M (cfg.seq_len - 1) ?_ hg (by omega)
      rw [hs, hL1]
  · decide

theorem C6_greedy_output_extraction_witness :
    ∃ d : List Nat, greedyState cfgB1 stubAB = (padTo cfgB1 d, d.length) ∧
      1 ≤ d.length ∧ d.length ≤ cfgB1.seq_len ∧ greedyIds cfgB1 stubAB = d.drop 1 ∧
      ∀ j, d.length ≤ j → (greedyState cfgB1 stubAB).1.getD j cfgB1.pad_id = cfgB1.pad_id :=
  C6_greedy_output_extraction.1 cfgB1 stubAB (by decide)

/-- C9 (confirmed): the beam is initialised with beam_size puts of the one
start hypothesis (start id, score -0.0, unfinished), so every pop from the
initial beam returns that hypothesis, and after the first decode position the
beam holds exactly beam_size copies of each of the top-beam_size single-token
extensions of the start hypothesis. -/
theorem C9_initial_beam_duplication :
    (∀ cfg : Cfg, initQueue cfg = List.replicate cfg.beam_size (startNode cfg)) ∧
    (∀ (cfg : Cfg) (j : Nat),
      pqGet? (List.replicate (j + 1) (startNode cfg))
        = some (startNode cfg, List.replicate j (startNode cfg))) ∧
    (∀ (cfg : Cfg) (M : Stub) (c : BeamNode),
      ((beamStateFull cfg M 1).2.1).count c
        = cfg.beam_size
            * (((expandNode cfg M 0 (startNode cfg)).map (mkChild cfg (startNode cfg))).count c)) := by
  refine ⟨initQueue_eq, fun cfg j => pqGet?_replicate (startNode cfg) j, ?_⟩
  intro cfg M c
  have h1 : (beamStateFull cfg M 1).2.1
      = (beamInner cfg M 0 cfg.beam_size (initQueue cfg) [] 0).1 := rfl
  rw [h1, initQueue_eq]
  rw [beamInner_replicate_count cfg M 0 (startNode cfg) rfl c cfg.beam_size [] 0]
  simp

/-- C10 (confirmed): greedy step i writes only buffer position i+1, and only
when i < L-1 (otherwise the buffer is untouched); position 0 is set to the
start id before the loop and is never overwritten, so the final buffer still
holds the start id at position 0, and the returned sequence is taken from
positions 1 onwards only. -/
theorem C10_greedy_writes_single_position :
    (∀ (cfg : Cfg) (M : Stub) (i : Nat) (buf : List Nat) (cl j : Nat) (x : Nat),
        j ≠ i + 1 → (greedyStep cfg M i buf cl).1.getD j x = buf.getD j x) ∧
    (∀ (cfg : Cfg) (M : Stub) (i : Nat) (buf : List Nat) (cl : Nat),
        cfg.seq_len - 1 ≤ i → (greedyStep cfg M i buf cl).1 = buf) ∧
    (∀ (cfg : Cfg) (M : Stub), 1 ≤ cfg.seq_len →
        (greedyState cfg M).1.getD 0 cfg.pad_id = cfg.sos_id ∧
        ∃ k, greedyIds cfg M = ((greedyState cfg M).1.drop 1).take k) := by
  refine ⟨?_, ?_, ?_⟩
  · intro cfg M i buf cl j x hj
    unfold greedyStep
    split
    · dsimp only
      rw [List.getD_eq_getElem?_getD, List.getD_eq_getElem?_getD,
        List.getElem?_set_ne (by omega : i + 1 ≠ j)]
    · rfl
  · intro cfg M i buf cl h
    unfold greedyStep
    rw [if_neg (by omega : ¬ i < cfg.seq_len - 1)]
  · intro cfg M hL
    have hs := greedyState_spec cfg M hL
    constructor
    · have hhead : ∀ t : Nat, (padTo cfg (cfg.sos_id :: trace cfg M t)).getD 0 cfg.pad_id
          = cfg.sos_id := by
        intro t
        rw [padTo]
        rfl
      cases hf : findEosFrom cfg M cfg.seq_len 0 with
      | some e =>
        rw [hf] at hs
        dsimp only at hs
        by_cases h2 : e + 1 < cfg.seq_len
        · rw [if_pos h2] at hs
          rw [hs]
          exact hhead (e + 1)
        · rw [if_neg h2] at hs
          rw [hs]
          exact hhead (cfg.seq_len - 1)
      | none =>
        rw [hf] at hs
        dsimp only at hs
        rw [hs]
        exact hhead (cfg.seq_len - 1)
    · unfold greedyIds
      split
      · exact ⟨(greedyState cfg M).2 - 1, by rw [List.drop_take]⟩
      · exact ⟨((greedyState cfg M).1.drop 1).length, by rw [List.take_length]⟩

theorem C10_greedy_writes_single_position_witness :
    (greedyStep cfgB1 stubAB 0 [1, 0, 0, 0, 0] 1).1.getD 3 7 = [1, 0, 0, 0, 0].getD 3 7 ∧
      (greedyState cfgB1 stubAB).1.getD 0 cfgB1.pad_id = cfgB1.sos_id :=
  ⟨C10_greedy_writes_single_position.1 cfgB1 stubAB 0 [1, 0, 0, 0, 0] 1 3 7 (by decide),
   (C10_greedy_writes_single_position.2.2 cfgB1 stubAB (by decide)).1⟩

/-- C1 (corrected): the beam search positions loop stops when, at the end of
a position, the finished tally is exactly equal to beam_size; the check is an
equality, so this is the amended form of the early-termination claim. -/
theorem C1_early_stop_on_equality (cfg : Cfg) (M : Stub) (k : Nat)
    (h : (beamStateFull cfg M (k + 1)).2.2 = cfg.beam_size) :
    beamPositionsProcessed cfg M ≤ k + 1 :=
  beamLoop_stop_le cfg M k cfg.seq_len 0 (initQueue cfg) 0 h

theorem C1_early_stop_on_equality_witness :
    (beamStateFull cfgB1 stubAB 2).2.2 = cfgB1.beam_size ∧
      beamPositionsProcessed cfgB1 stubAB ≤ 2 := by
  have h : (beamStateFull cfgB1 stubAB 2).2.2 = cfgB1.beam_size := by
    norm_num [beamStateFull, stepState, beamPosStep, beamInner, expandNode, topkList,
      topkPairs, selectMax, idxPairs, pqGet?, pqPut, mkChild, initQueue, startNode, padTo,
      cfgB1, stubAB, List.range_succ, List.replicate_succ, List.getElem?_cons_zero,
      List.getElem?_cons_succ, List.getElem?_nil, Option.getD_some, Option.getD_none,
      List.getD]
  exact ⟨h, C1_early_stop_on_equality cfgB1 stubAB 1 h⟩

/-- C1 counterexample: under stubC1 with beam_size 2, the finished tally is 3
(at least beam_size) after the third position, yet the loop still processes a
fourth position: the tally skipped the exact value 2, so the equality check
never fires and the claim as stated (stop as soon as the count is at least
beam_size) fails. -/
theorem C1_counterexample :
    cfgC1.beam_size ≤ (beamStateFull cfgC1 stubC1 3).2.2 ∧
      ¬ beamPositionsProcessed cfgC1 stubC1 ≤ 3 := by
  constructor <;>
    norm_num [beamStateFull, beamPositionsProcessed, beamFinal, beamLoop, stepState,
      beamPosStep, beamInner, expandNode, topkList, topkPairs, selectMax, idxPairs,
      pqGet?, pqPut, mkChild, initQueue, startNode, padTo, cfgC1, stubC1,
      List.range_succ, List.replicate_succ, List.getElem?_cons_zero,
      List.getElem?_cons_succ, List.getElem?_nil, Option.getD_some, Option.getD_none,
      List.getD]

/-- C3 (corrected): with beam_size = 1 the beam decoder follows exactly the
greedy argmax trace; when that trace first emits the end token before the
last position, the greedy output ends with that end token and the beam output
is the greedy output with the trailing end token removed (so the two id
sequences are not equal: the amended relation). -/
theorem C3_beam1_is_greedy_without_trailing_eos (cfg : Cfg) (M : Stub) (e : Nat)
    (hbs : cfg.beam_size = 1) (hL : 1 ≤ cfg.seq_len) (hM : ∀ b p, M b p ≠ [])
    (he : findEosFrom cfg M cfg.seq_len 0 = some e) (helt : e + 1 < cfg.seq_len) :
    beamIds cfg M = (greedyIds cfg M).dropLast ∧
      (greedyIds cfg M).getLast? = some cfg.eos_id := by
  have hg := greedyIds_eq cfg M hL
  have hb := beamIds_eq1 cfg M hbs hL hM
  rw [he] at hg hb
  dsimp only at hg hb
  rw [if_pos helt] at hg
  have htok : tokAt cfg M e = cfg.eos_id := findEosFrom_some_tok cfg M cfg.seq_len 0 e he
  rw [hg, hb, trace_succ, htok]
  constructor
  · rw [List.dropLast_concat]
  · rw [List.getLast?_concat]

theorem C3_beam1_is_greedy_without_trailing_eos_witness :
    beamIds cfgB1 stubAB = (greedyIds cfgB1 stubAB).dropLast ∧
      (greedyIds cfgB1 stubAB).getLast? = some cfgB1.eos_id :=
  C3_beam1_is_greedy_without_trailing_eos cfgB1 stubAB 1 rfl (by decide)
    (fun b p => by simp only [stubAB]; split <;> simp)
    (by decide) (by decide)

/-- C3 counterexample: on the spec's own scenario stub the greedy decoder
returns [3, 2] (the end token included) while the beam decoder with beam
size 1 strips the end token and returns [3]; the outputs differ. -/
theorem C3_counterexample : beamIds cfgB1 stubAB ≠ greedyIds cfgB1 stubAB := by
  decide

/-- C4 (confirmed): in every beam search state, an unfinished hypothesis
stores exactly its raw accumulated negated log-probability (no division), and
a finished hypothesis stores that raw sum divided by the length of its
decoded sequence -- the division therefore happens exactly once, at the step
that appended the end token, and carried finished hypotheses are never
renormalised. -/
theorem C4_finished_score_normalized_once (cfg : Cfg) (M : Stub) (k : Nat) (n : BeamNode)
    (hn : n ∈ (beamStateFull cfg M k).2.1) : scoreInv cfg M k n :=
  beamStateFull_inv cfg M k n hn

theorem C4_finished_score_normalized_once_witness :
    scoreInv cfgB1 stubAB 2
      { word_id := 2, prob := 2 / 3, decoded := [1, 3, 2], is_finished := true } :=
  C4_finished_score_normalized_once cfgB1 stubAB 2 _ (by
    norm_num [beamStateFull, stepState, beamPosStep, beamInner, expandNode, topkList,
      topkPairs, selectMax, idxPairs, pqGet?, pqPut, mkChild, initQueue, startNode, padTo,
      cfgB1, stubAB, List.range_succ, List.replicate_succ, List.getElem?_cons_zero,
      List.getElem?_cons_succ, List.getElem?_nil, Option.getD_some, Option.getD_none,
      List.getD])
